import Mathlib

/-!
Shallow embedding of the OlegDB core (src/src/oleg.c and src/src/dump.c).

Byte buffers are modelled as `List Nat` (one entry per byte). C strings are
modelled as the list of their bytes up to, and not including, the first NUL;
reads past the end of a buffer observe the NUL padding the source's `calloc`
and `strncpy` guarantee, so `strncmpEq` treats positions beyond a list's
length as the byte 0.

The repository slice contains only oleg.c and dump.c.  The headers (oleg.h,
dump.h, aol.h) and murmur3.c are not present, so the constants they define
and the hash function are modelled from the spec: the development is
parameterized over an arbitrary 32-bit-style hash function `h`, `KEY_SIZE`
is the spec's `KEY_MAX = 250`, and a slot-head pointer occupies 8 bytes
(the spec's 64-bit host).
-/

namespace Oleg

/-- Modelled from the spec: `KEY_MAX` = 250 bytes (oleg.h is not in the slice). -/
def KEY_SIZE : Nat := 250

/-- Modelled from the spec: `sizeof(ol_bucket *)` on the spec's 64-bit host. -/
def PTR_SIZE : Nat := 8

/-- `ol_ht_bucket_max` from oleg.c: the slot count of a table of `ht_size` bytes. -/
def ol_ht_bucket_max (ht_size : Nat) : Nat := ht_size / PTR_SIZE

/-- `_ol_calc_idx` from oleg.c: `hash & (bucket_max - 1)`. -/
def _ol_calc_idx (ht_size : Nat) (hash : Nat) : Nat :=
  hash &&& (ol_ht_bucket_max ht_size - 1)

/-- `strncmp(a, b, n) == 0` for byte buffers viewed with NUL padding beyond
their length: compare byte by byte, stopping at a difference (nonzero
result), at a NUL that both sides share, or after `n` bytes. -/
def strncmpEq : List Nat → List Nat → Nat → Bool
  | _, _, 0 => true
  | [], [], _ + 1 => true
  | [], y :: _, _ + 1 => y == 0
  | x :: _, [], _ + 1 => x == 0
  | x :: xs, y :: ys, n + 1 =>
      if x = y then (if x = 0 then true else strncmpEq xs ys n) else false

/-- `_ol_trunc` from oleg.c composed with the `strnlen` its callers apply:
the key is cut at `KEY_SIZE` bytes and, because `strncpy` stops copying at a
NUL, also at its first zero byte.  The result is the effective (NUL-free)
key; its length is the `_klen` the callers compute. -/
def _ol_trunc (key : List Nat) (klen : Nat) : List Nat :=
  (key.take (min klen KEY_SIZE)).takeWhile (fun b => b != 0)

/-- `ol_bucket` from oleg.h, modelled from the fields oleg.c and dump.c use.
The `next` pointer is represented by the position in the chain list. -/
structure OlBucket where
  key : List Nat
  klen : Nat
  hash : Nat
  data_ptr : List Nat
  data_size : Nat
  content_type : List Nat
  ctype_size : Nat
  deriving Repr, DecidableEq

/-- The per-bucket key comparison `_ol_get_bucket` performs:
`strncmp(bucket->key, key, larger_key) == 0` with
`larger_key = max(bucket->klen, klen)`. -/
def bucketMatches (b : OlBucket) (key : List Nat) (klen : Nat) : Bool :=
  strncmpEq b.key key (max b.klen klen)

/-- The chain walk of `_ol_get_bucket`: first bucket whose key matches. -/
def chainFind (key : List Nat) (klen : Nat) : List OlBucket → Option OlBucket
  | [] => none
  | b :: bs => if bucketMatches b key klen then some b else chainFind key klen bs

/-- `OL_S_STARTUP` / `OL_S_AOKAY` store states (spec §3 state machine). -/
inductive OlState
  | startup
  | aokay
  deriving Repr, DecidableEq

/-- One command record of the append-only log (spec §4.3). -/
inductive AolCmd
  | jarCmd (b : OlBucket)
  | scoopCmd (b : OlBucket)
  deriving Repr, DecidableEq

/-- Modelled from the spec: `OL_F_APPENDONLY` is the only defined feature
flag of the bitset (oleg.h is not in the slice). -/
def OL_F_APPENDONLY : Nat := 1

/-- `ol_database` from oleg.h, modelled from the fields oleg.c uses.  The
`aol` field models the sequence of command records appended to the log. -/
structure OlDatabase where
  hashes : List (List OlBucket)
  cur_ht_size : Nat
  rcrd_cnt : Nat
  key_collisions : Nat
  feature_set : Nat
  state : OlState
  aol : List AolCmd
  deriving Repr, DecidableEq

/-- The chain rooted at slot `i` (a NULL head is the empty chain). -/
def chainAt (db : OlDatabase) (i : Nat) : List OlBucket :=
  (db.hashes[i]?).getD []

/-- The guard `db->is_enabled(OL_F_APPENDONLY, &db->feature_set) &&
db->state != OL_S_STARTUP` of oleg.c. -/
def aolOn (db : OlDatabase) : Bool :=
  (db.feature_set &&& OL_F_APPENDONLY != 0) && (db.state != OlState.startup)

/-- Modelled from the spec: `ol_aol_write_cmd` (aol.c is not in the slice)
appends exactly one command record to the log (spec §4.3). -/
def ol_aol_write_cmd (db : OlDatabase) (c : AolCmd) : OlDatabase :=
  { db with aol := db.aol ++ [c] }

/-- `_ol_get_bucket` from oleg.c. -/
def _ol_get_bucket (db : OlDatabase) (hash : Nat) (key : List Nat) (klen : Nat) :
    Option OlBucket :=
  chainFind key klen (chainAt db (_ol_calc_idx db.cur_ht_size hash))

/-- `_ol_set_bucket` from oleg.c: append to the end of the slot's chain
(`_ol_get_last_bucket_in_slot`), count a collision when the slot was
occupied, and increment `rcrd_cnt`. -/
def _ol_set_bucket (db : OlDatabase) (b : OlBucket) : OlDatabase :=
  let index := _ol_calc_idx db.cur_ht_size b.hash
  let chain := chainAt db index
  { db with
      hashes := db.hashes.set index (chain ++ [b]),
      rcrd_cnt := db.rcrd_cnt + 1,
      key_collisions :=
        if chain.isEmpty then db.key_collisions else db.key_collisions + 1 }

/-- `_ol_rehash_insert_bucket` from oleg.c, called by the grow loop on each
non-NULL chain head.  In the source the head's `next` pointer still links
the rest of its old chain, so placing the head drags the entire chain to
the slot computed from the head's hash; appending to the last bucket of an
occupied target slot corresponds to list append. -/
def _ol_rehash_insert_bucket (tmp : List (List OlBucket)) (to_alloc : Nat)
    (chain : List OlBucket) : List (List OlBucket) :=
  match chain with
  | [] => tmp
  | b :: _ =>
      let idx := _ol_calc_idx to_alloc b.hash
      tmp.set idx (((tmp[idx]?).getD []) ++ chain)

/-- `_ol_grow_and_rehash_db` from oleg.c: double the byte size, allocate a
zeroed slot array, and re-place each non-NULL chain head (with its chain)
at the slot computed from the head's hash under the new size. -/
def _ol_grow_and_rehash_db (db : OlDatabase) : OlDatabase :=
  let to_alloc := db.cur_ht_size * 2
  let tmp := db.hashes.foldl (fun t c => _ol_rehash_insert_bucket t to_alloc c)
      (List.replicate (ol_ht_bucket_max to_alloc) [])
  { db with hashes := tmp, cur_ht_size := to_alloc }

/-- Replace the first bucket of the chain matching the probe with `b'`
(the in-place mutation of `_ol_jar`'s update path). -/
def updateFirst (key : List Nat) (klen : Nat) (b' : OlBucket) :
    List OlBucket → List OlBucket
  | [] => []
  | b :: bs =>
      if bucketMatches b key klen then b' :: bs
      else b :: updateFirst key klen b' bs

/-- The matched bucket after `_ol_jar`'s update path mutated it in place:
value buffer reallocated and overwritten (`memcpy` of `vsize` bytes),
content type reallocated and overwritten (`memcpy` of `ctsize` bytes),
`klen`, `data_size` and `ctype_size` refreshed; key and hash untouched. -/
def updatedBucket (b : OlBucket) (_klen : Nat) (value : List Nat) (vsize : Nat)
    (ct : List Nat) (ctsize : Nat) : OlBucket :=
  { b with
      klen := _klen,
      data_ptr := value.take vsize,
      data_size := vsize,
      content_type := ct.take ctsize,
      ctype_size := ctsize }

/-- The fresh bucket `_ol_jar`'s insert path builds: key copied with
`strncpy` from the truncated key, value `memcpy`ed, content type copied
with `strncpy` (which stops at a NUL in `ct`). -/
def newBucket (_key : List Nat) (_klen hash : Nat) (value : List Nat) (vsize : Nat)
    (ct : List Nat) (ctsize : Nat) : OlBucket :=
  { key := _key,
    klen := _klen,
    hash := hash,
    data_ptr := value.take vsize,
    data_size := vsize,
    content_type := (ct.takeWhile (fun c => c != 0)).take ctsize,
    ctype_size := ctsize }

/-- `_ol_jar` from oleg.c.  The update path overwrites the matched bucket's
value and content type in place (`memcpy`); the insert path builds a fresh
bucket (content type copied with `strncpy`, which stops at a NUL), grows
the table first when `rcrd_cnt > 0 && rcrd_cnt == bucket_max`, appends the
bucket to its slot's chain, and in either path appends a JAR command to the
AOL when the feature is on and the state is not STARTUP.  Allocation and
`memcpy` failures (returns 1–7) are not modelled. -/
def _ol_jar (h : List Nat → Nat) (db : OlDatabase) (key : List Nat) (klen : Nat)
    (value : List Nat) (vsize : Nat) (ct : List Nat) (ctsize : Nat) : OlDatabase :=
  let _key := _ol_trunc key klen
  let _klen := _key.length
  let hash := h _key
  let index := _ol_calc_idx db.cur_ht_size hash
  match _ol_get_bucket db hash _key _klen with
  | some b =>
      let b' := updatedBucket b _klen value vsize ct ctsize
      let db1 := { db with
        hashes := db.hashes.set index (updateFirst _key _klen b' (chainAt db index)) }
      if aolOn db1 then ol_aol_write_cmd db1 (AolCmd.jarCmd b') else db1
  | none =>
      let nb := newBucket _key _klen hash value vsize ct ctsize
      let db1 :=
        if 0 < db.rcrd_cnt ∧ db.rcrd_cnt = ol_ht_bucket_max db.cur_ht_size then
          _ol_grow_and_rehash_db db
        else db
      let db2 := _ol_set_bucket db1 nb
      if aolOn db2 then ol_aol_write_cmd db2 (AolCmd.jarCmd nb) else db2

/-- The default content type `ol_jar` passes to `_ol_jar`:
`"application/octet-stream"`, 24 bytes. -/
def defaultContentType : List Nat :=
  [97, 112, 112, 108, 105, 99, 97, 116, 105, 111, 110, 47,
   111, 99, 116, 101, 116, 45, 115, 116, 114, 101, 97, 109]

/-- `ol_jar` from oleg.c. -/
def ol_jar (h : List Nat → Nat) (db : OlDatabase) (key : List Nat) (klen : Nat)
    (value : List Nat) (vsize : Nat) : OlDatabase :=
  _ol_jar h db key klen value vsize defaultContentType 24

/-- `ol_jar_ct` from oleg.c. -/
def ol_jar_ct (h : List Nat → Nat) (db : OlDatabase) (key : List Nat) (klen : Nat)
    (value : List Nat) (vsize : Nat) (ct : List Nat) (ctsize : Nat) : OlDatabase :=
  _ol_jar h db key klen value vsize ct ctsize

/-- `ol_unjar_ds` from oleg.c: the found bucket's data pointer and, through
the `dsize` out-parameter, its `data_size`. -/
def ol_unjar_ds (h : List Nat → Nat) (db : OlDatabase) (key : List Nat) (klen : Nat) :
    Option (List Nat × Nat) :=
  let _key := _ol_trunc key klen
  match _ol_get_bucket db (h _key) _key _key.length with
  | some b => some (b.data_ptr, b.data_size)
  | none => none

/-- `ol_unjar` from oleg.c (`ol_unjar_ds` with `dsize = NULL`). -/
def ol_unjar (h : List Nat → Nat) (db : OlDatabase) (key : List Nat) (klen : Nat) :
    Option (List Nat) :=
  (ol_unjar_ds h db key klen).map Prod.fst

/-- `ol_content_type` from oleg.c. -/
def ol_content_type (h : List Nat → Nat) (db : OlDatabase) (key : List Nat)
    (klen : Nat) : Option (List Nat) :=
  let _key := _ol_trunc key klen
  match _ol_get_bucket db (h _key) _key _key.length with
  | some b => some b.content_type
  | none => none

/-- The walk of `ol_scoop` over the buckets after the chain head (source
lines 451–464).  It compares with `strncmp(bucket->key, key, klen)` on the
RAW probe key and length, returns the chain as relinked by the source:
a matched bucket with a successor is spliced out (`last->next =
bucket->next`), but a matched LAST bucket is freed without relinking its
predecessor, so it stays in the chain. -/
def scoopTail (rawKey : List Nat) (rawKlen : Nat) :
    List OlBucket → List OlBucket × Bool
  | [] => ([], false)
  | b :: bs =>
      if strncmpEq b.key rawKey rawKlen then
        (if bs.isEmpty then [b] else bs, true)
      else
        let r := scoopTail rawKey rawKlen bs
        (b :: r.1, r.2)

/-- `ol_scoop` from oleg.c.  The head comparison uses the truncated key and
its length; a head match promotes `next`, appends a SCOOP command when the
AOL is on, and decrements `rcrd_cnt`.  A non-head match is handled by
`scoopTail` and appends no AOL command.  Returns the C status (0 deleted,
2 not found) with the resulting database. -/
def ol_scoop (h : List Nat → Nat) (db : OlDatabase) (key : List Nat) (klen : Nat) :
    Int × OlDatabase :=
  let _key := _ol_trunc key klen
  let _klen := _key.length
  let hash := h _key
  let index := _ol_calc_idx db.cur_ht_size hash
  match chainAt db index with
  | [] => (2, db)
  | b :: bs =>
      if strncmpEq b.key _key _klen then
        let db1 := { db with hashes := db.hashes.set index bs }
        let db2 := if aolOn db1 then ol_aol_write_cmd db1 (AolCmd.scoopCmd b) else db1
        (0, { db2 with rcrd_cnt := db2.rcrd_cnt - 1 })
      else if bs.isEmpty then (2, db)
      else
        let r := scoopTail key klen bs
        if r.2 then
          (0, { db with
                  hashes := db.hashes.set index (b :: r.1),
                  rcrd_cnt := db.rcrd_cnt - 1 })
        else (2, db)

/-- All records of the store in slot order, chains concatenated (the
iteration order of `_ol_close` and `ol_save_db`). -/
def allBuckets (db : OlDatabase) : List OlBucket :=
  db.hashes.foldl (fun a c => a ++ c) []

/-! ## Dump writer and reader (src/src/dump.c)

The dump file is modelled at the granularity of the source's `fwrite` and
`fread` calls: one entry per field written.  `struct dump_header`,
`DUMP_SIG` and `DUMP_VERSION` come from dump.h, which is not in the slice;
they are modelled from the spec (§6): signature `"OLEG"`, version four
ASCII digits `"0001"`. -/

/-- One field written to or read from a dump file. -/
inductive DumpEntry
  | header (sig : List Nat) (version : List Nat) (rcrd_cnt : Nat)
  | keyE (bytes : List Nat)
  | sizeE (n : Nat)
  | dataE (bytes : List Nat)
  deriving Repr, DecidableEq

/-- The two files `ol_save_db` touches: `<path>/<name>.dump-tmp` and the
live `<path>/<name>.dump` (`none` = the file does not exist). -/
structure DumpFS where
  tmp : Option (List DumpEntry)
  live : Option (List DumpEntry)
  deriving Repr, DecidableEq

/-- Fault model for one run of `ol_save_db`: whether `fopen` succeeds,
whether the header `fwrite` succeeds, whether the `fwrite`s of the `i`-th
record (in write order) succeed, and whether the final `rename` succeeds.
A failed record write transfers nothing. -/
structure SaveEnv where
  openOk : Bool
  headerOk : Bool
  recordOk : Nat → Bool
  renameOk : Bool

/-- Modelled from the spec: `DUMP_SIG` is the 4 bytes `"OLEG"` (§6). -/
def DUMP_SIG : List Nat := [79, 76, 69, 71]

/-- Modelled from the spec: the current dump version number. -/
def DUMP_VERSION : Nat := 1

/-- `"%04i"` rendering of `DUMP_VERSION`: the ASCII digits `"0001"`. -/
def dumpVersionChars : List Nat := [48, 48, 48, 49]

/-- The `KEY_SIZE` bytes `fwrite(&bucket->key, ...)` emits: the key,
NUL-padded. -/
def padKey (k : List Nat) : List Nat :=
  k ++ List.replicate (KEY_SIZE - k.length) 0

/-- The three `fwrite`s `_ol_write_bucket` performs per record. -/
def bucketEntries (b : OlBucket) : List DumpEntry :=
  [DumpEntry.keyE (padKey b.key), DumpEntry.sizeE b.data_size,
   DumpEntry.dataE b.data_ptr]

/-- `ol_save_db` from dump.c.  `fopen` failure and header-`fwrite` failure
hit the error label (unlink the temp file, return -1).  `_ol_write_bucket`
IGNORES the return values of its `fwrite`s and always returns 0, so the
`check` on it in `ol_save_db` never fires: failed record writes are
undetected and the file is still renamed over the live dump.  A `rename`
failure unlinks the temp file and returns -1. -/
def ol_save_db (db : OlDatabase) (fs : DumpFS) (env : SaveEnv) : Int × DumpFS :=
  if !env.openOk then (-1, { fs with tmp := none })
  else if !env.headerOk then (-1, { fs with tmp := none })
  else
    let hdr := DumpEntry.header DUMP_SIG dumpVersionChars db.rcrd_cnt
    let content := (allBuckets db).foldl
      (fun (acc : List DumpEntry × Nat) b =>
        (if env.recordOk acc.2 then acc.1 ++ bucketEntries b else acc.1,
         acc.2 + 1))
      ([hdr], 0)
    if !env.renameOk then (-1, { fs with tmp := none })
    else (0, { tmp := none, live := some content.1 })

/-- A dump file as `ol_load_db` reads it: the header fields followed by the
per-record (key bytes, value size, value bytes) triples actually present. -/
structure DumpFileM where
  sig : List Nat
  version : List Nat
  rcrd_cnt : Nat
  records : List (List Nat × Nat × List Nat)
  deriving Repr, DecidableEq

/-- `atoi` on the version field: leading ASCII digits. -/
def atoiDigits (s : List Nat) : Nat :=
  (s.takeWhile (fun c => 48 ≤ c && c ≤ 57)).foldl (fun a c => a * 10 + (c - 48)) 0

/-- `_ol_store_bin_object` from dump.c.  Modelled from the spec for the
record insertion (§4.6): each record read is handed to `put` with the
content type defaulted; the key argument is the `KEY_SIZE`-byte NUL-padded
buffer that was read (the call in dump.c matches an older `ol_jar` arity —
oleg.h is not in the slice to resolve it). -/
def _ol_store_bin_object (h : List Nat → Nat) (db : OlDatabase)
    (r : List Nat × Nat × List Nat) : OlDatabase :=
  ol_jar h db r.1 KEY_SIZE r.2.2 r.2.1

/-- `ol_load_db` from dump.c: `memcmp` the 4-byte signature, `atoi` the
version, then loop `rcrd_cnt` times over `_ol_store_bin_object`.  Both
header mismatches return -1 (after printing different messages); success
returns 0.  The source never checks its `fread` results, so a file holding
fewer than `rcrd_cnt` records makes the loop read indeterminate memory;
only the records actually present are modelled as read. -/
def ol_load_db (h : List Nat → Nat) (db : OlDatabase) (f : DumpFileM) :
    Int × OlDatabase :=
  if f.sig.take 4 ≠ DUMP_SIG then (-1, db)
  else if atoiDigits f.version ≠ DUMP_VERSION then (-1, db)
  else (0, (f.records.take f.rcrd_cnt).foldl (fun d r => _ol_store_bin_object h d r) db)

/-! ## Concrete stores used by witnesses and counterexamples -/

/-- A concrete hash function for witnesses and counterexamples: the first
byte of the (truncated) key.  The spec (§4.1) admits any 32-bit hash. -/
def hashHead (l : List Nat) : Nat := l.headD 0

/-- An empty store with `2 ^ t` slots, features off, state AOKAY. -/
def mkEmptyDb (t : Nat) : OlDatabase :=
  { hashes := List.replicate (2 ^ t) [],
    cur_ht_size := PTR_SIZE * 2 ^ t,
    rcrd_cnt := 0,
    key_collisions := 0,
    feature_set := 0,
    state := OlState.aokay,
    aol := [] }

/-- An empty store with `2 ^ t` slots and `APPEND_ONLY` enabled, state AOKAY. -/
def mkAolDb (t : Nat) : OlDatabase :=
  { mkEmptyDb t with feature_set := OL_F_APPENDONLY }

/-- Two-slot store holding keys `[8]` (hash 8, slot 0) and `[2]` (hash 2,
slot 0): a two-record collision chain built by two puts under `hashHead`. -/
def dbChain2 : OlDatabase :=
  ol_jar hashHead (ol_jar hashHead (mkEmptyDb 1) [8] 1 [10] 1) [2] 1 [20] 1

/-- The same two-record collision chain with `APPEND_ONLY` on. -/
def dbChain2Aol : OlDatabase :=
  ol_jar hashHead (ol_jar hashHead (mkAolDb 1) [8] 1 [10] 1) [2] 1 [20] 1

/-- Concrete store for the C4 analysis: stored key "ab" = `[97, 98]` at
the head of slot 0 under the constant hash. -/
def dbAB : OlDatabase := ol_jar (fun _ => 0) (mkEmptyDb 1) [97, 98] 2 [1] 1

/-- A well-formed dump file with one record, used by the C9 witness. -/
def fGood : DumpFileM :=
  { sig := DUMP_SIG, version := dumpVersionChars, rcrd_cnt := 1,
    records := [([5], 1, [9])] }

/-- One-record store and fault environment for the C8 analysis. -/
def dbOne : OlDatabase := ol_jar hashHead (mkEmptyDb 0) [5] 1 [9] 1

def fsLive : DumpFS := { tmp := none, live := some [DumpEntry.sizeE 999] }

def envRecFail : SaveEnv :=
  { openOk := true, headerOk := true, recordOk := fun _ => false,
    renameOk := true }

/-! ## Well-formedness invariants -/

/-- Key-field coherence of a bucket, as established by every insertion:
the stored `klen` is the stored key's length, the key is NUL-free (it came
through `_ol_trunc`), and it fits in the `KEY_SIZE` key array. -/
structure KeyWF (b : OlBucket) : Prop where
  klen_eq : b.klen = b.key.length
  nulfree : ∀ c ∈ b.key, c ≠ 0
  le_max : b.key.length ≤ KEY_SIZE

/-- Well-formedness of a store with `2 ^ t` slots: the byte size and slot
array agree with `t`, every stored key is coherent, and every chain HEAD
hashes to its own slot.  (Chain members need not: grow drags whole chains
behind their head, which is exactly the C1 defect.) -/
structure DbWF (t : Nat) (db : OlDatabase) : Prop where
  size_eq : db.cur_ht_size = PTR_SIZE * 2 ^ t
  len_eq : db.hashes.length = 2 ^ t
  keys : ∀ c ∈ db.hashes, ∀ b ∈ c, KeyWF b
  heads : ∀ i : Nat, ∀ hb : OlBucket, ∀ rest : List OlBucket,
      db.hashes[i]? = some (hb :: rest) → hb.hash % 2 ^ t = i

/-! ## Lemmas -/

/-- strncmp of a buffer with itself is always 0. -/
theorem strncmpEq_self (a : List Nat) (n : Nat) : strncmpEq a a n = true := by
  induction a generalizing n with
  | nil => cases n <;> simp [strncmpEq]
  | cons x xs ih =>
      cases n with
      | zero => simp [strncmpEq]
      | succ m =>
          simp only [strncmpEq, if_pos rfl]
          by_cases hx : x = 0
          · simp [hx]
          · simp [hx, ih]

/-- For NUL-free buffers compared over the larger of their lengths, strncmp
equality is exactly byte-string equality: in particular a strict prefix of
a stored key never compares equal. -/
theorem strncmpEq_max_iff (a b : List Nat)
    (ha : ∀ c ∈ a, c ≠ 0) (hb : ∀ c ∈ b, c ≠ 0) :
    (strncmpEq a b (max a.length b.length) = true ↔ a = b) := by
  induction a generalizing b with
  | nil =>
      cases b with
      | nil => simp [strncmpEq]
      | cons y ys =>
          have hy : y ≠ 0 := hb y (List.mem_cons_self y ys)
          simp [strncmpEq, hy]
  | cons x xs ih =>
      have hx : x ≠ 0 := ha x (List.mem_cons_self x xs)
      cases b with
      | nil => simp [strncmpEq, hx]
      | cons y ys =>
          have hmax : max (x :: xs).length (y :: ys).length
              = max xs.length ys.length + 1 := by
            simp [List.length_cons, Nat.succ_max_succ]
          rw [hmax]
          by_cases hxy : x = y
          · subst hxy
            have hih := ih ys (fun c hc => ha c (List.mem_cons_of_mem x hc))
              (fun c hc => hb c (List.mem_cons_of_mem x hc))
            simp [strncmpEq, hx, hih]
          · simp [strncmpEq, hxy]

/-- strncmp against a buffer whose first NUL sits at position `p < n` is
decided entirely by the `p`-byte prefix: a NUL-free string compares equal
iff it is exactly that prefix. -/
theorem strncmpEq_nul_stop (p : Nat) : ∀ (s r : List Nat) (n : Nat),
    (∀ c ∈ s, c ≠ 0) → (∀ c ∈ r.take p, c ≠ 0) → r[p]? = some 0 → p < n →
    (strncmpEq s r n = true ↔ s = r.take p) := by
  induction p with
  | zero =>
      intro s r n hs hr hp hn
      obtain ⟨y, r', rfl⟩ : ∃ y r', r = y :: r' := by
        cases r with
        | nil => simp at hp
        | cons y r' => exact ⟨y, r', rfl⟩
      have hy : y = 0 := by simpa using hp
      subst hy
      obtain ⟨m, rfl⟩ : ∃ m, n = m + 1 := ⟨n - 1, by omega⟩
      cases s with
      | nil => simp [strncmpEq]
      | cons x xs =>
          have hx : x ≠ 0 := hs x (List.mem_cons_self x xs)
          simp [strncmpEq, hx]
  | succ p ih =>
      intro s r n hs hr hp hn
      obtain ⟨y, r', rfl⟩ : ∃ y r', r = y :: r' := by
        cases r with
        | nil => simp at hp
        | cons y r' => exact ⟨y, r', rfl⟩
      have hy : y ≠ 0 := by
        apply hr
        simp [List.take_cons]
      have hp' : r'[p]? = some 0 := by simpa using hp
      have hr' : ∀ c ∈ r'.take p, c ≠ 0 := by
        intro c hc
        exact hr c (by simp [List.take_cons, hc])
      obtain ⟨m, rfl⟩ : ∃ m, n = m + 1 := ⟨n - 1, by omega⟩
      have hm : p < m := by omega
      cases s with
      | nil =>
          simp [strncmpEq, hy, List.take_cons]
      | cons x xs =>
          have hxs : ∀ c ∈ xs, c ≠ 0 := fun c hc => hs c (List.mem_cons_of_mem x hc)
          by_cases hxy : x = y
          · subst hxy
            have hx : x ≠ 0 := hs x (List.mem_cons_self x xs)
            have hih := ih xs r' m hxs hr' hp' hm
            simp [strncmpEq, hx, List.take_cons, hih]
          · simp [strncmpEq, hxy, List.take_cons]

/-- The effective key is NUL-free. -/
theorem trunc_nulfree (key : List Nat) (klen : Nat) :
    ∀ c ∈ _ol_trunc key klen, c ≠ 0 := by
  intro c hc
  have := List.mem_takeWhile_imp hc
  simpa using this

/-- The effective key never exceeds `KEY_SIZE` bytes. -/
theorem trunc_len_le (key : List Nat) (klen : Nat) :
    (_ol_trunc key klen).length ≤ KEY_SIZE := by
  have h1 : (_ol_trunc key klen).length ≤ (key.take (min klen KEY_SIZE)).length :=
    (List.takeWhile_sublist _).length_le
  have h2 : (key.take (min klen KEY_SIZE)).length ≤ min klen KEY_SIZE :=
    List.length_take_le _ _
  have h3 : min klen KEY_SIZE ≤ KEY_SIZE := min_le_right _ _
  omega

/-- A NUL-free buffer of admissible length passed at its own length is
already in effective form. -/
theorem trunc_of_nulfree (k : List Nat) (hfree : ∀ c ∈ k, c ≠ 0)
    (hle : k.length ≤ KEY_SIZE) : _ol_trunc k k.length = k := by
  unfold _ol_trunc
  rw [min_eq_left hle, List.take_length]
  exact List.takeWhile_eq_self_iff.mpr (fun x hx => by simpa using hfree x hx)

/-- Truncating the effective key at its own length is the identity. -/
theorem trunc_idem (key : List Nat) (klen : Nat) :
    _ol_trunc (_ol_trunc key klen) (_ol_trunc key klen).length
      = _ol_trunc key klen :=
  trunc_of_nulfree _ (trunc_nulfree key klen) (trunc_len_le key klen)

/-- A key with its first NUL at position `p` (with `p < klen` and
`p ≤ KEY_SIZE`) truncates to its `p`-byte prefix. -/
theorem trunc_of_nul (key : List Nat) (klen p : Nat)
    (hfree : ∀ c ∈ key.take p, c ≠ 0) (hp : key[p]? = some 0)
    (hpk : p < klen) (hps : p ≤ KEY_SIZE) :
    _ol_trunc key klen = key.take p := by
  unfold _ol_trunc
  have hmin : p ≤ min klen KEY_SIZE := le_min (by omega) hps
  -- generalize over the cut-off n := min klen KEY_SIZE
  revert hmin
  generalize min klen KEY_SIZE = n
  intro hmin
  clear hpk hps
  induction p generalizing key n with
  | zero =>
      obtain ⟨y, r', rfl⟩ : ∃ y r', key = y :: r' := by
        cases key with
        | nil => simp at hp
        | cons y r' => exact ⟨y, r', rfl⟩
      have hy : y = 0 := by simpa using hp
      subst hy
      cases n with
      | zero => simp
      | succ m => simp [List.take_cons]
  | succ p ih =>
      obtain ⟨y, r', rfl⟩ : ∃ y r', key = y :: r' := by
        cases key with
        | nil => simp at hp
        | cons y r' => exact ⟨y, r', rfl⟩
      have hy : y ≠ 0 := by
        apply hfree
        simp [List.take_cons]
      obtain ⟨m, rfl⟩ : ∃ m, n = m + 1 := ⟨n - 1, by omega⟩
      have hr' : ∀ c ∈ r'.take p, c ≠ 0 := by
        intro c hc
        exact hfree c (by simp [List.take_cons, hc])
      have hp' : r'[p]? = some 0 := by simpa using hp
      have := ih r' hr' hp' m (by omega)
      simp [List.take_cons, hy, this]

/-- `ol_ht_bucket_max` of a well-sized table. -/
theorem bucket_max_pow (t : Nat) : ol_ht_bucket_max (PTR_SIZE * 2 ^ t) = 2 ^ t := by
  unfold ol_ht_bucket_max
  exact Nat.mul_div_cancel_left _ (by norm_num [PTR_SIZE])

/-- On a power-of-two table the slot mask is reduction mod the slot count. -/
theorem calc_idx_pow (t hash : Nat) :
    _ol_calc_idx (PTR_SIZE * 2 ^ t) hash = hash % 2 ^ t := by
  unfold _ol_calc_idx
  rw [bucket_max_pow]
  exact Nat.and_pow_two_sub_one_eq_mod hash t

theorem mkEmptyDb_wf (t : Nat) : DbWF t (mkEmptyDb t) := by
  refine ⟨rfl, by simp [mkEmptyDb], ?_, ?_⟩
  · intro c hc b hb
    have : c = [] := List.eq_of_mem_replicate hc
    simp [this] at hb
  · intro i hb rest hsome
    simp only [mkEmptyDb, List.getElem?_replicate] at hsome
    split at hsome <;> simp_all

theorem mkAolDb_wf (t : Nat) : DbWF t (mkAolDb t) := by
  have h := mkEmptyDb_wf t
  exact ⟨h.size_eq, h.len_eq, h.keys, h.heads⟩

/-- A successful chain walk returns a member that matches. -/
theorem chainFind_some (key : List Nat) (klen : Nat) :
    ∀ (ch : List OlBucket) (b : OlBucket), chainFind key klen ch = some b →
      b ∈ ch ∧ bucketMatches b key klen = true := by
  intro ch
  induction ch with
  | nil => intro b h; simp [chainFind] at h
  | cons x xs ih =>
      intro b h
      by_cases hm : bucketMatches x key klen = true
      · simp [chainFind, hm] at h
        subst h
        exact ⟨List.mem_cons_self _ _, hm⟩
      · simp [chainFind, hm] at h
        obtain ⟨hmem, hmatch⟩ := ih b h
        exact ⟨List.mem_cons_of_mem _ hmem, hmatch⟩

/-- Appending to a chain with no match finds the appended bucket iff it
matches. -/
theorem chainFind_append_none (key : List Nat) (klen : Nat) (nb : OlBucket) :
    ∀ ch : List OlBucket, chainFind key klen ch = none →
      chainFind key klen (ch ++ [nb])
        = if bucketMatches nb key klen then some nb else none := by
  intro ch
  induction ch with
  | nil => intro _; simp [chainFind]
  | cons x xs ih =>
      intro h
      by_cases hm : bucketMatches x key klen = true
      · simp [chainFind, hm] at h
      · simp [chainFind, hm] at h ⊢
        exact ih h

/-- Updating the first match and searching again finds the replacement,
provided the replacement still matches. -/
theorem chainFind_updateFirst (key : List Nat) (klen : Nat) (b' : OlBucket)
    (hb' : bucketMatches b' key klen = true) :
    ∀ ch : List OlBucket, (chainFind key klen ch).isSome →
      chainFind key klen (updateFirst key klen b' ch) = some b' := by
  intro ch
  induction ch with
  | nil => intro h; simp [chainFind] at h
  | cons x xs ih =>
      intro h
      by_cases hm : bucketMatches x key klen = true
      · simp [updateFirst, hm, chainFind, hb']
      · simp only [updateFirst, if_neg hm]
        simp only [chainFind, if_neg hm] at h ⊢
        exact ih h

theorem updateFirst_length (key : List Nat) (klen : Nat) (b' : OlBucket) :
    ∀ ch : List OlBucket, (updateFirst key klen b' ch).length = ch.length := by
  intro ch
  induction ch with
  | nil => rfl
  | cons x xs ih =>
      by_cases hm : bucketMatches x key klen = true <;>
        simp [updateFirst, hm, ih]

theorem updateFirst_mem (key : List Nat) (klen : Nat) (b' : OlBucket) :
    ∀ (ch : List OlBucket) (x : OlBucket), x ∈ updateFirst key klen b' ch →
      x = b' ∨ x ∈ ch := by
  intro ch
  induction ch with
  | nil => intro x hx; simp [updateFirst] at hx
  | cons c cs ih =>
      intro x hx
      by_cases hm : bucketMatches c key klen = true
      · simp [updateFirst, hm] at hx
        rcases hx with h | h
        · exact Or.inl h
        · exact Or.inr (List.mem_cons_of_mem _ h)
      · simp only [updateFirst, if_neg hm, List.mem_cons] at hx
        rcases hx with h | h
        · exact Or.inr (by simp [h])
        · rcases ih x h with h' | h'
          · exact Or.inl h'
          · exact Or.inr (List.mem_cons_of_mem _ h')

/-- The head of an updated chain keeps its hash when the replacement has
the hash of the first match. -/
theorem updateFirst_head (key : List Nat) (klen : Nat) (b' : OlBucket)
    (hd : OlBucket) (rest : List OlBucket) :
    updateFirst key klen b' (hd :: rest)
      = if bucketMatches hd key klen then b' :: rest
        else hd :: updateFirst key klen b' rest := rfl

theorem chainFind_cons (key : List Nat) (klen : Nat) (hd : OlBucket)
    (rest : List OlBucket) :
    chainFind key klen (hd :: rest)
      = if bucketMatches hd key klen then some hd
        else chainFind key klen rest := rfl

/-- The grow loop preserves the length of the slot array it fills. -/
theorem rehash_fold_length (ta : Nat) :
    ∀ (L : List (List OlBucket)) (acc : List (List OlBucket)),
      (L.foldl (fun a c => _ol_rehash_insert_bucket a ta c) acc).length
        = acc.length := by
  intro L
  induction L with
  | nil => intro acc; rfl
  | cons c cs ih =>
      intro acc
      rw [List.foldl_cons, ih]
      cases c with
      | nil => rfl
      | cons b cb => simp [_ol_rehash_insert_bucket]

/-- Every chain head placed by the grow loop hashes to its slot under the
new slot count (regardless of any head invariant on the source). -/
theorem rehash_fold_heads (m : Nat) :
    ∀ (L : List (List OlBucket)) (acc : List (List OlBucket)),
      (∀ j : Nat, ∀ hb : OlBucket, ∀ rest : List OlBucket,
        acc[j]? = some (hb :: rest) → hb.hash % 2 ^ m = j) →
      ∀ j : Nat, ∀ hb : OlBucket, ∀ rest : List OlBucket,
        (L.foldl (fun a c => _ol_rehash_insert_bucket a (PTR_SIZE * 2 ^ m) c)
          acc)[j]? = some (hb :: rest) → hb.hash % 2 ^ m = j := by
  intro L
  induction L with
  | nil => intro acc hacc; exact hacc
  | cons c cs ih =>
      intro acc hacc
      rw [List.foldl_cons]
      apply ih
      cases c with
      | nil => exact hacc
      | cons b cb =>
          intro j hb rest hj
          simp only [_ol_rehash_insert_bucket, calc_idx_pow] at hj
          by_cases hlt : b.hash % 2 ^ m < acc.length
          · by_cases hji : b.hash % 2 ^ m = j
            · subst hji
              rw [List.getElem?_set_self hlt] at hj
              injection hj with hj
              cases hold : (acc[b.hash % 2 ^ m]?).getD [] with
              | nil =>
                  rw [hold] at hj
                  simp only [List.nil_append, List.cons.injEq] at hj
                  rw [← hj.1]
              | cons o os =>
                  rw [hold] at hj
                  simp only [List.cons_append, List.cons.injEq] at hj
                  have hv : acc[b.hash % 2 ^ m]? = some (o :: os) := by
                    rw [List.getElem?_eq_getElem hlt] at hold ⊢
                    simp only [Option.getD_some] at hold
                    rw [hold]
                  rw [← hj.1]
                  exact hacc _ o os hv
            · rw [List.getElem?_set_ne hji] at hj
              exact hacc j hb rest hj
          · rw [List.set_eq_of_length_le (by omega)] at hj
            exact hacc j hb rest hj

/-- Every record in the grown table came from the accumulator or from one
of the source chains. -/
theorem rehash_fold_mem (ta : Nat) :
    ∀ (L : List (List OlBucket)) (acc : List (List OlBucket)),
      ∀ c' ∈ L.foldl (fun a c => _ol_rehash_insert_bucket a ta c) acc,
        ∀ b ∈ c', (∃ c ∈ acc, b ∈ c) ∨ (∃ c ∈ L, b ∈ c) := by
  intro L
  induction L with
  | nil =>
      intro acc c' hc' b hb
      exact Or.inl ⟨c', hc', hb⟩
  | cons c cs ih =>
      intro acc c' hc' b hb
      rw [List.foldl_cons] at hc'
      rcases ih _ c' hc' b hb with h | h
      · -- b came from the stepped accumulator
        cases hc : c with
        | nil =>
            subst hc
            rcases h with ⟨c0, hc0, hb0⟩
            exact Or.inl ⟨c0, by simpa [_ol_rehash_insert_bucket] using hc0, hb0⟩
        | cons x cb =>
            subst hc
            rcases h with ⟨c0, hc0, hb0⟩
            simp only [_ol_rehash_insert_bucket] at hc0
            rcases List.mem_or_eq_of_mem_set hc0 with h0 | h0
            · exact Or.inl ⟨c0, h0, hb0⟩
            · subst h0
              rcases List.mem_append.mp hb0 with h1 | h1
              · cases hgd : (acc[_ol_calc_idx ta x.hash]?) with
                | none => rw [hgd] at h1; simp at h1
                | some v =>
                    rw [hgd] at h1
                    simp only [Option.getD_some] at h1
                    exact Or.inl ⟨v, List.getElem?_mem hgd, h1⟩
              · exact Or.inr ⟨x :: cb, List.mem_cons_self _ _, h1⟩
      · rcases h with ⟨c0, hc0, hb0⟩
        exact Or.inr ⟨c0, List.mem_cons_of_mem _ hc0, hb0⟩

/-- The central grow invariant: because distinct source slots never refine
to the same target slot (they differ mod `2 ^ t`, hence mod `2 ^ (t+1)`),
each target slot of the grown table holds either the empty chain or
exactly the source chain whose slot it refines. -/
theorem rehash_fold_chain_inv (t : Nat) (orig : List (List OlBucket))
    (hheads : ∀ i : Nat, ∀ hb : OlBucket, ∀ rest : List OlBucket,
      orig[i]? = some (hb :: rest) → hb.hash % 2 ^ t = i) :
    ∀ (cs : List (List OlBucket)) (k : Nat) (acc : List (List OlBucket)),
      orig.drop k = cs →
      acc.length = 2 ^ (t + 1) →
      (∀ j : Nat, j < 2 ^ (t + 1) → k ≤ j % 2 ^ t → acc[j]? = some []) →
      (∀ j : Nat, j < 2 ^ (t + 1) → j % 2 ^ t < k →
        acc[j]? = some [] ∨ acc[j]? = orig[j % 2 ^ t]?) →
      ∀ j : Nat, j < 2 ^ (t + 1) →
        (cs.foldl (fun a c =>
            _ol_rehash_insert_bucket a (PTR_SIZE * 2 ^ (t + 1)) c) acc)[j]?
          = some [] ∨
        (cs.foldl (fun a c =>
            _ol_rehash_insert_bucket a (PTR_SIZE * 2 ^ (t + 1)) c) acc)[j]?
          = orig[j % 2 ^ t]? := by
  intro cs
  induction cs with
  | nil =>
      intro k acc hdrop hlen2 hinv2 hinv3 j hj
      have hk : orig.length ≤ k := List.drop_eq_nil_iff.mp hdrop
      simp only [List.foldl_nil]
      by_cases hjk : j % 2 ^ t < k
      · exact hinv3 j hj hjk
      · exact Or.inl (hinv2 j hj (by omega))
  | cons c cs' ih =>
      intro k acc hdrop hlen2 hinv2 hinv3 j hj
      have hck : orig[k]? = some c := by
        have h0 : (orig.drop k)[0]? = orig[k]? := by
          rw [List.getElem?_drop]
          norm_num
        rw [hdrop] at h0
        simpa using h0.symm
      have hdrop' : orig.drop (k + 1) = cs' := by
        have : orig.drop (k + 1) = (orig.drop k).drop 1 := by
          rw [List.drop_drop]
        rw [this, hdrop]
        rfl
      rw [List.foldl_cons]
      cases c with
      | nil =>
          refine ih (k + 1) acc hdrop' hlen2 ?_ ?_ j hj
          · intro j' hj' hk'
            exact hinv2 j' hj' (by omega)
          · intro j' hj' hk'
            by_cases h : j' % 2 ^ t < k
            · exact hinv3 j' hj' h
            · have : j' % 2 ^ t = k := by omega
              exact Or.inl (hinv2 j' hj' (by omega))
      | cons b cb =>
          have hk : b.hash % 2 ^ t = k := hheads k b cb hck
          have hpos : 0 < 2 ^ t := Nat.pos_pow_of_pos t (by omega)
          have hidxmod : (b.hash % 2 ^ (t + 1)) % 2 ^ t = k := by
            rw [Nat.mod_mod_of_dvd _ (pow_dvd_pow 2 (Nat.le_succ t))]
            exact hk
          have hidxlt : b.hash % 2 ^ (t + 1) < 2 ^ (t + 1) :=
            Nat.mod_lt _ (Nat.pos_pow_of_pos _ (by omega))
          have haccidx : acc[b.hash % 2 ^ (t + 1)]? = some [] :=
            hinv2 _ hidxlt (le_of_eq hidxmod.symm)
          have hstep : _ol_rehash_insert_bucket acc (PTR_SIZE * 2 ^ (t + 1)) (b :: cb)
              = acc.set (b.hash % 2 ^ (t + 1)) (b :: cb) := by
            simp only [_ol_rehash_insert_bucket, calc_idx_pow, haccidx,
              Option.getD_some, List.nil_append]
          rw [hstep]
          refine ih (k + 1) _ hdrop' (by simp [hlen2]) ?_ ?_ j hj
          · intro j' hj' hk'
            have hne : b.hash % 2 ^ (t + 1) ≠ j' := by
              intro he
              rw [← he] at hk'
              omega
            rw [List.getElem?_set_ne hne]
            exact hinv2 j' hj' (by omega)
          · intro j' hj' hk'
            by_cases hje : j' = b.hash % 2 ^ (t + 1)
            · subst hje
              rw [List.getElem?_set_self (by omega)]
              right
              rw [hidxmod, hck]
            · have hne : b.hash % 2 ^ (t + 1) ≠ j' := fun he => hje he.symm
              rw [List.getElem?_set_ne hne]
              by_cases h : j' % 2 ^ t < k
              · exact hinv3 j' hj' h
              · have : j' % 2 ^ t = k := by omega
                exact Or.inl (hinv2 j' hj' (by omega))

/-- On a well-formed table, grow doubles the byte size and refills a
`2 ^ (t+1)`-slot array. -/
theorem grow_eq (t : Nat) (db : OlDatabase) (hsz : db.cur_ht_size = PTR_SIZE * 2 ^ t) :
    _ol_grow_and_rehash_db db =
      { db with
          hashes := db.hashes.foldl
            (fun a c => _ol_rehash_insert_bucket a (PTR_SIZE * 2 ^ (t + 1)) c)
            (List.replicate (2 ^ (t + 1)) []),
          cur_ht_size := PTR_SIZE * 2 ^ (t + 1) } := by
  have h2 : db.cur_ht_size * 2 = PTR_SIZE * 2 ^ (t + 1) := by
    rw [hsz, pow_succ]
    ring
  simp only [_ol_grow_and_rehash_db, h2, bucket_max_pow]

/-- Grow preserves well-formedness, stepping the size exponent. -/
theorem grow_wf (t : Nat) (db : OlDatabase) (hwf : DbWF t db) :
    DbWF (t + 1) (_ol_grow_and_rehash_db db) := by
  rw [grow_eq t db hwf.size_eq]
  refine ⟨rfl, ?_, ?_, ?_⟩
  · simp [rehash_fold_length]
  · intro c hc b hb
    rcases rehash_fold_mem (PTR_SIZE * 2 ^ (t + 1)) db.hashes
        (List.replicate (2 ^ (t + 1)) []) c hc b hb with h | h
    · rcases h with ⟨c0, hc0, hb0⟩
      have : c0 = [] := List.eq_of_mem_replicate hc0
      simp [this] at hb0
    · rcases h with ⟨c0, hc0, hb0⟩
      exact hwf.keys c0 hc0 b hb0
  · intro i hb rest hsome
    refine rehash_fold_heads (t + 1) db.hashes (List.replicate (2 ^ (t + 1)) [])
      ?_ i hb rest hsome
    intro j hb' rest' hj
    rw [List.getElem?_replicate] at hj
    split at hj <;> simp_all

/-- The slot a probe refines to after grow holds either the probe's old
chain unchanged or the empty chain. -/
theorem grow_chainAt (t : Nat) (db : OlDatabase) (hwf : DbWF t db) (x : Nat) :
    chainAt (_ol_grow_and_rehash_db db) (x % 2 ^ (t + 1)) = chainAt db (x % 2 ^ t) ∨
    chainAt (_ol_grow_and_rehash_db db) (x % 2 ^ (t + 1)) = [] := by
  rw [grow_eq t db hwf.size_eq]
  have hj : x % 2 ^ (t + 1) < 2 ^ (t + 1) :=
    Nat.mod_lt _ (Nat.pos_pow_of_pos _ (by omega))
  have hmod : x % 2 ^ (t + 1) % 2 ^ t = x % 2 ^ t :=
    Nat.mod_mod_of_dvd _ (pow_dvd_pow 2 (Nat.le_succ t))
  have key := rehash_fold_chain_inv t db.hashes hwf.heads db.hashes 0
    (List.replicate (2 ^ (t + 1)) []) (by simp) (by simp)
    (fun j hjlt _ => List.getElem?_replicate_of_lt hjlt)
    (fun j _ h => by omega)
    (x % 2 ^ (t + 1)) hj
  rcases key with h | h
  · right
    simp [chainAt, h]
  · left
    simp only [chainAt, h, hmod]

theorem chainAt_getElem (db : OlDatabase) (i : Nat) (h : i < db.hashes.length) :
    db.hashes[i]? = some (chainAt db i) := by
  simp [chainAt, List.getElem?_eq_getElem h]

/-- Conditional AOL append changes only the log. -/
theorem aolIf_hashes (d : OlDatabase) (c : AolCmd) :
    (if aolOn d then ol_aol_write_cmd d c else d).hashes = d.hashes := by
  split <;> simp [ol_aol_write_cmd]

theorem aolIf_size (d : OlDatabase) (c : AolCmd) :
    (if aolOn d then ol_aol_write_cmd d c else d).cur_ht_size = d.cur_ht_size := by
  split <;> simp [ol_aol_write_cmd]

theorem aolIf_rcrd (d : OlDatabase) (c : AolCmd) :
    (if aolOn d then ol_aol_write_cmd d c else d).rcrd_cnt = d.rcrd_cnt := by
  split <;> simp [ol_aol_write_cmd]

/-- Update-path field equations of `_ol_jar`. -/
theorem jar_update_fields (h : List Nat → Nat) (db : OlDatabase) (key : List Nat)
    (klen : Nat) (value : List Nat) (vsize : Nat) (ct : List Nat) (ctsize : Nat)
    (b : OlBucket)
    (hlook : _ol_get_bucket db (h (_ol_trunc key klen)) (_ol_trunc key klen)
      (_ol_trunc key klen).length = some b) :
    (_ol_jar h db key klen value vsize ct ctsize).hashes
      = db.hashes.set (_ol_calc_idx db.cur_ht_size (h (_ol_trunc key klen)))
          (updateFirst (_ol_trunc key klen) (_ol_trunc key klen).length
            (updatedBucket b (_ol_trunc key klen).length value vsize ct ctsize)
            (chainAt db (_ol_calc_idx db.cur_ht_size (h (_ol_trunc key klen))))) ∧
    (_ol_jar h db key klen value vsize ct ctsize).cur_ht_size = db.cur_ht_size ∧
    (_ol_jar h db key klen value vsize ct ctsize).rcrd_cnt = db.rcrd_cnt := by
  refine ⟨?_, ?_, ?_⟩ <;>
    · simp only [_ol_jar, hlook]
      split <;> simp [ol_aol_write_cmd]

/-- Insert-path field equations of `_ol_jar`, stated over the intermediate
table `db1` (grown if the load-factor trigger fired). -/
theorem jar_insert_fields (h : List Nat → Nat) (db : OlDatabase) (key : List Nat)
    (klen : Nat) (value : List Nat) (vsize : Nat) (ct : List Nat) (ctsize : Nat)
    (hlook : _ol_get_bucket db (h (_ol_trunc key klen)) (_ol_trunc key klen)
      (_ol_trunc key klen).length = none) :
    (_ol_jar h db key klen value vsize ct ctsize).hashes
      = (if 0 < db.rcrd_cnt ∧ db.rcrd_cnt = ol_ht_bucket_max db.cur_ht_size then
           _ol_grow_and_rehash_db db else db).hashes.set
          (_ol_calc_idx
            (if 0 < db.rcrd_cnt ∧ db.rcrd_cnt = ol_ht_bucket_max db.cur_ht_size then
               _ol_grow_and_rehash_db db else db).cur_ht_size
            (h (_ol_trunc key klen)))
          (chainAt
            (if 0 < db.rcrd_cnt ∧ db.rcrd_cnt = ol_ht_bucket_max db.cur_ht_size then
               _ol_grow_and_rehash_db db else db)
            (_ol_calc_idx
              (if 0 < db.rcrd_cnt ∧ db.rcrd_cnt = ol_ht_bucket_max db.cur_ht_size then
                 _ol_grow_and_rehash_db db else db).cur_ht_size
              (h (_ol_trunc key klen)))
            ++ [newBucket (_ol_trunc key klen) (_ol_trunc key klen).length
                  (h (_ol_trunc key klen)) value vsize ct ctsize]) ∧
    (_ol_jar h db key klen value vsize ct ctsize).cur_ht_size
      = (if 0 < db.rcrd_cnt ∧ db.rcrd_cnt = ol_ht_bucket_max db.cur_ht_size then
           _ol_grow_and_rehash_db db else db).cur_ht_size ∧
    (_ol_jar h db key klen value vsize ct ctsize).rcrd_cnt
      = (if 0 < db.rcrd_cnt ∧ db.rcrd_cnt = ol_ht_bucket_max db.cur_ht_size then
           _ol_grow_and_rehash_db db else db).rcrd_cnt + 1 := by
  refine ⟨?_, ?_, ?_⟩ <;>
    · simp only [_ol_jar, hlook, _ol_set_bucket]
      split <;> split <;> split <;> simp [ol_aol_write_cmd, newBucket]

/-- Update path of `_ol_jar`: on a well-formed store, putting an existing
key rewrites the matched bucket in place; the subsequent lookup finds the
new value and content type, `rcrd_cnt` is unchanged, and well-formedness
is preserved at the same size exponent. -/
theorem jar_update (h : List Nat → Nat) (t : Nat) (db : OlDatabase) (hwf : DbWF t db)
    (key : List Nat) (klen : Nat) (value : List Nat) (vsize : Nat) (ct : List Nat)
    (ctsize : Nat) (b : OlBucket)
    (hlook : _ol_get_bucket db (h (_ol_trunc key klen)) (_ol_trunc key klen)
      (_ol_trunc key klen).length = some b) :
    DbWF t (_ol_jar h db key klen value vsize ct ctsize) ∧
    ol_unjar_ds h (_ol_jar h db key klen value vsize ct ctsize) key klen
      = some (value.take vsize, vsize) ∧
    ol_content_type h (_ol_jar h db key klen value vsize ct ctsize) key klen
      = some (ct.take ctsize) ∧
    (_ol_jar h db key klen value vsize ct ctsize).rcrd_cnt = db.rcrd_cnt := by
  obtain ⟨hh, hc, hr⟩ := jar_update_fields h db key klen value vsize ct ctsize b hlook
  have hfree := trunc_nulfree key klen
  have hilt : _ol_calc_idx db.cur_ht_size (h (_ol_trunc key klen)) < db.hashes.length := by
    rw [hwf.size_eq, calc_idx_pow, hwf.len_eq]
    exact Nat.mod_lt _ (Nat.pos_pow_of_pos _ (by omega))
  have hchmem : chainAt db (_ol_calc_idx db.cur_ht_size (h (_ol_trunc key klen)))
      ∈ db.hashes := List.getElem?_mem (chainAt_getElem db _ hilt)
  have hfind : chainFind (_ol_trunc key klen) (_ol_trunc key klen).length
      (chainAt db (_ol_calc_idx db.cur_ht_size (h (_ol_trunc key klen)))) = some b := hlook
  obtain ⟨hbmem, hbmatch⟩ := chainFind_some _ _ _ _ hfind
  have hbwf : KeyWF b := hwf.keys _ hchmem b hbmem
  have hbkey : b.key = _ol_trunc key klen := by
    rw [bucketMatches, hbwf.klen_eq] at hbmatch
    exact (strncmpEq_max_iff _ _ hbwf.nulfree hfree).mp hbmatch
  have hb'match : bucketMatches
      (updatedBucket b (_ol_trunc key klen).length value vsize ct ctsize)
      (_ol_trunc key klen) (_ol_trunc key klen).length = true := by
    simp [bucketMatches, updatedBucket, hbkey, strncmpEq_self]
  have hfind' : chainFind (_ol_trunc key klen) (_ol_trunc key klen).length
      (updateFirst (_ol_trunc key klen) (_ol_trunc key klen).length
        (updatedBucket b (_ol_trunc key klen).length value vsize ct ctsize)
        (chainAt db (_ol_calc_idx db.cur_ht_size (h (_ol_trunc key klen)))))
      = some (updatedBucket b (_ol_trunc key klen).length value vsize ct ctsize) :=
    chainFind_updateFirst _ _ _ hb'match _ (by rw [hfind]; rfl)
  have hchain' : chainAt (_ol_jar h db key klen value vsize ct ctsize)
      (_ol_calc_idx db.cur_ht_size (h (_ol_trunc key klen)))
      = updateFirst (_ol_trunc key klen) (_ol_trunc key klen).length
          (updatedBucket b (_ol_trunc key klen).length value vsize ct ctsize)
          (chainAt db (_ol_calc_idx db.cur_ht_size (h (_ol_trunc key klen)))) := by
    simp only [chainAt, hh, List.getElem?_set_self hilt, Option.getD_some]
  have hlook' : _ol_get_bucket (_ol_jar h db key klen value vsize ct ctsize)
      (h (_ol_trunc key klen)) (_ol_trunc key klen) (_ol_trunc key klen).length
      = some (updatedBucket b (_ol_trunc key klen).length value vsize ct ctsize) := by
    unfold _ol_get_bucket
    rw [hc, hchain', hfind']
  refine ⟨⟨?_, ?_, ?_, ?_⟩, ?_, ?_, hr⟩
  · rw [hc, hwf.size_eq]
  · rw [hh, List.length_set, hwf.len_eq]
  · intro c hcmem bb hbb
    rw [hh] at hcmem
    rcases List.mem_or_eq_of_mem_set hcmem with hcm | hcm
    · exact hwf.keys c hcm bb hbb
    · subst hcm
      rcases updateFirst_mem _ _ _ _ bb hbb with hbb' | hbb'
      · subst hbb'
        refine ⟨?_, ?_, ?_⟩
        · simp [updatedBucket, hbkey]
        · intro cc hcc
          exact hbwf.nulfree cc (by simpa [updatedBucket] using hcc)
        · simpa [updatedBucket] using hbwf.le_max
      · exact hwf.keys _ hchmem bb hbb'
  · intro i hb2 rest hsome
    rw [hh] at hsome
    by_cases hie : i = _ol_calc_idx db.cur_ht_size (h (_ol_trunc key klen))
    · subst hie
      rw [List.getElem?_set_self hilt] at hsome
      injection hsome with hsome
      -- the old chain is nonempty: b is a member
      cases hch : chainAt db (_ol_calc_idx db.cur_ht_size (h (_ol_trunc key klen))) with
      | nil => rw [hch] at hbmem; simp at hbmem
      | cons hd rest0 =>
          have hhd : hd.hash % 2 ^ t
              = _ol_calc_idx db.cur_ht_size (h (_ol_trunc key klen)) := by
            have hge := chainAt_getElem db _ hilt
            rw [hch] at hge
            exact hwf.heads _ hd rest0 hge
          rw [hch, updateFirst_head] at hsome
          by_cases hm : bucketMatches hd (_ol_trunc key klen)
              (_ol_trunc key klen).length = true
          · rw [if_pos hm] at hsome
            have hbhd : b = hd := by
              rw [hch, chainFind_cons, if_pos hm] at hfind
              exact (Option.some.injEq _ _ ▸ hfind).symm ▸ rfl
            have hhead : hb2 = updatedBucket b (_ol_trunc key klen).length
                value vsize ct ctsize := by
              exact (List.cons.injEq _ _ _ _ ▸ hsome).1.symm
            rw [hhead]
            simpa [updatedBucket, hbhd] using hhd
          · rw [if_neg hm] at hsome
            have hhead : hb2 = hd := (List.cons.injEq _ _ _ _ ▸ hsome).1.symm
            rw [hhead]
            exact hhd
    · rw [List.getElem?_set_ne (fun he => hie he.symm)] at hsome
      exact hwf.heads i hb2 rest hsome
  · simp only [ol_unjar_ds, hlook']
    simp [updatedBucket]
  · simp only [ol_content_type, hlook']
    simp [updatedBucket]

/-- Insert path of `_ol_jar`: on a well-formed store, putting an absent key
(growing first if the trigger fired) appends a fresh bucket to the probed
chain; the subsequent lookup finds it, and well-formedness is preserved at
the (possibly stepped) size exponent. -/
theorem jar_insert (h : List Nat → Nat) (t : Nat) (db : OlDatabase) (hwf : DbWF t db)
    (key : List Nat) (klen : Nat) (value : List Nat) (vsize : Nat) (ct : List Nat)
    (ctsize : Nat)
    (hlook : _ol_get_bucket db (h (_ol_trunc key klen)) (_ol_trunc key klen)
      (_ol_trunc key klen).length = none) :
    ∃ t', DbWF t' (_ol_jar h db key klen value vsize ct ctsize) ∧
      ol_unjar_ds h (_ol_jar h db key klen value vsize ct ctsize) key klen
        = some (value.take vsize, vsize) ∧
      ol_content_type h (_ol_jar h db key klen value vsize ct ctsize) key klen
        = some ((ct.takeWhile (fun c => c != 0)).take ctsize) := by
  obtain ⟨hh, hc, hr⟩ := jar_insert_fields h db key klen value vsize ct ctsize hlook
  set db1 := if 0 < db.rcrd_cnt ∧ db.rcrd_cnt = ol_ht_bucket_max db.cur_ht_size then
    _ol_grow_and_rehash_db db else db with hdb1
  have hst : ∃ t1, DbWF t1 db1 ∧
      (chainAt db1 (h (_ol_trunc key klen) % 2 ^ t1)
         = chainAt db (h (_ol_trunc key klen) % 2 ^ t) ∨
       chainAt db1 (h (_ol_trunc key klen) % 2 ^ t1) = []) := by
    rw [hdb1]
    split
    · exact ⟨t + 1, grow_wf t db hwf, grow_chainAt t db hwf _⟩
    · exact ⟨t, hwf, Or.inl rfl⟩
  obtain ⟨t1, hwf1, hchain1⟩ := hst
  have hfind0 : chainFind (_ol_trunc key klen) (_ol_trunc key klen).length
      (chainAt db (h (_ol_trunc key klen) % 2 ^ t)) = none := by
    have hl := hlook
    unfold _ol_get_bucket at hl
    rwa [hwf.size_eq, calc_idx_pow] at hl
  have hfind1 : chainFind (_ol_trunc key klen) (_ol_trunc key klen).length
      (chainAt db1 (h (_ol_trunc key klen) % 2 ^ t1)) = none := by
    rcases hchain1 with h1 | h1
    · rw [h1]; exact hfind0
    · rw [h1]; rfl
  have hidx1 : _ol_calc_idx db1.cur_ht_size (h (_ol_trunc key klen))
      = h (_ol_trunc key klen) % 2 ^ t1 := by
    rw [hwf1.size_eq, calc_idx_pow]
  have hlt1 : h (_ol_trunc key klen) % 2 ^ t1 < db1.hashes.length := by
    rw [hwf1.len_eq]
    exact Nat.mod_lt _ (Nat.pos_pow_of_pos _ (by omega))
  rw [hidx1] at hh
  have hnbm : bucketMatches
      (newBucket (_ol_trunc key klen) (_ol_trunc key klen).length
        (h (_ol_trunc key klen)) value vsize ct ctsize)
      (_ol_trunc key klen) (_ol_trunc key klen).length = true := by
    simp [bucketMatches, newBucket, strncmpEq_self]
  have hchain' : chainAt (_ol_jar h db key klen value vsize ct ctsize)
      (h (_ol_trunc key klen) % 2 ^ t1)
      = chainAt db1 (h (_ol_trunc key klen) % 2 ^ t1)
        ++ [newBucket (_ol_trunc key klen) (_ol_trunc key klen).length
              (h (_ol_trunc key klen)) value vsize ct ctsize] := by
    simp only [chainAt, hh, List.getElem?_set_self hlt1, Option.getD_some]
  have hlook' : _ol_get_bucket (_ol_jar h db key klen value vsize ct ctsize)
      (h (_ol_trunc key klen)) (_ol_trunc key klen) (_ol_trunc key klen).length
      = some (newBucket (_ol_trunc key klen) (_ol_trunc key klen).length
          (h (_ol_trunc key klen)) value vsize ct ctsize) := by
    unfold _ol_get_bucket
    rw [hc, hidx1, hchain', chainFind_append_none _ _ _ _ hfind1, if_pos hnbm]
  refine ⟨t1, ⟨?_, ?_, ?_, ?_⟩, ?_, ?_⟩
  · rw [hc, hwf1.size_eq]
  · rw [hh, List.length_set, hwf1.len_eq]
  · intro c hcmem bb hbb
    rw [hh] at hcmem
    rcases List.mem_or_eq_of_mem_set hcmem with hcm | hcm
    · exact hwf1.keys c hcm bb hbb
    · subst hcm
      rcases List.mem_append.mp hbb with hbb' | hbb'
      · exact hwf1.keys _ (List.getElem?_mem (chainAt_getElem db1 _ hlt1)) bb hbb'
      · have : bb = newBucket (_ol_trunc key klen) (_ol_trunc key klen).length
            (h (_ol_trunc key klen)) value vsize ct ctsize := by simpa using hbb'
        subst this
        exact ⟨rfl, trunc_nulfree key klen, trunc_len_le key klen⟩
  · intro i hb2 rest hsome
    rw [hh] at hsome
    by_cases hie : i = h (_ol_trunc key klen) % 2 ^ t1
    · subst hie
      rw [List.getElem?_set_self hlt1] at hsome
      injection hsome with hsome
      cases hch : chainAt db1 (h (_ol_trunc key klen) % 2 ^ t1) with
      | nil =>
          rw [hch] at hsome
          simp only [List.nil_append, List.cons.injEq] at hsome
          rw [← hsome.1]
          rfl
      | cons hd rest0 =>
          rw [hch] at hsome
          simp only [List.cons_append, List.cons.injEq] at hsome
          rw [← hsome.1]
          have hge := chainAt_getElem db1 _ hlt1
          rw [hch] at hge
          exact hwf1.heads _ hd rest0 hge
    · rw [List.getElem?_set_ne (fun he => hie he.symm)] at hsome
      exact hwf1.heads i hb2 rest hsome
  · simp only [ol_unjar_ds, hlook']
    simp [newBucket]
  · simp only [ol_content_type, hlook']
    simp [newBucket]

/-- One put on a well-formed store: the key is subsequently retrievable
with the value just written, and if the key was already present the record
count is unchanged. -/
theorem jar_step (h : List Nat → Nat) (t : Nat) (db : OlDatabase) (hwf : DbWF t db)
    (key : List Nat) (klen : Nat) (value : List Nat) (vsize : Nat) (ct : List Nat)
    (ctsize : Nat) :
    ∃ t', DbWF t' (_ol_jar h db key klen value vsize ct ctsize) ∧
      ol_unjar_ds h (_ol_jar h db key klen value vsize ct ctsize) key klen
        = some (value.take vsize, vsize) ∧
      ((_ol_get_bucket db (h (_ol_trunc key klen)) (_ol_trunc key klen)
          (_ol_trunc key klen).length).isSome →
        (_ol_jar h db key klen value vsize ct ctsize).rcrd_cnt = db.rcrd_cnt) := by
  cases hlook : _ol_get_bucket db (h (_ol_trunc key klen)) (_ol_trunc key klen)
      (_ol_trunc key klen).length with
  | some b =>
      obtain ⟨hwf', hunjar, _, hrcrd⟩ :=
        jar_update h t db hwf key klen value vsize ct ctsize b hlook
      exact ⟨t, hwf', hunjar, fun _ => hrcrd⟩
  | none =>
      obtain ⟨t', hwf', hunjar, _⟩ :=
        jar_insert h t db hwf key klen value vsize ct ctsize hlook
      exact ⟨t', hwf', hunjar, fun hs => by simp at hs⟩

/-- Folding further puts of the same key over a store in which the key is
already retrievable keeps it retrievable with the last value and leaves
`rcrd_cnt` unchanged. -/
theorem foldl_jar_inv (h : List Nat → Nat) (key : List Nat) (klen : Nat) :
    ∀ (vs : List (List Nat)) (d : OlDatabase) (t : Nat) (cur : List Nat),
      DbWF t d → ol_unjar_ds h d key klen = some (cur, cur.length) →
      ol_unjar_ds h (vs.foldl (fun d w => ol_jar h d key klen w w.length) d) key klen
        = some (vs.getLastD cur, (vs.getLastD cur).length) ∧
      (vs.foldl (fun d w => ol_jar h d key klen w w.length) d).rcrd_cnt
        = d.rcrd_cnt := by
  intro vs
  induction vs with
  | nil =>
      intro d t cur hwf hcur
      exact ⟨by simpa using hcur, rfl⟩
  | cons w vs' ih =>
      intro d t cur hwf hcur
      have hsome : (_ol_get_bucket d (h (_ol_trunc key klen)) (_ol_trunc key klen)
          (_ol_trunc key klen).length).isSome = true := by
        cases hl : _ol_get_bucket d (h (_ol_trunc key klen)) (_ol_trunc key klen)
            (_ol_trunc key klen).length with
        | some b => simp
        | none =>
            simp only [ol_unjar_ds, hl] at hcur
            exact absurd hcur (by simp)
      obtain ⟨t', hwf', hunjar, hrcrd⟩ :=
        jar_step h t d hwf key klen w w.length defaultContentType 24
      have hunjar' : ol_unjar_ds h (ol_jar h d key klen w w.length) key klen
          = some (w, w.length) := by
        rw [ol_jar, hunjar, List.take_length]
      obtain ⟨hres, hcnt⟩ := ih (ol_jar h d key klen w w.length) t' w hwf' hunjar'
      refine ⟨?_, ?_⟩
      · rw [List.foldl_cons, hres, List.getLastD_cons]
      · rw [List.foldl_cons, hcnt]
        exact hrcrd hsome

/-! ## The claims -/

/-- `ol_scoop` never changes the table size. -/
theorem scoop_size (h : List Nat → Nat) (db : OlDatabase) (key : List Nat)
    (klen : Nat) : (ol_scoop h db key klen).2.cur_ht_size = db.cur_ht_size := by
  simp only [ol_scoop]
  split
  · rfl
  · split
    · split <;> simp [ol_aol_write_cmd]
    · split
      · rfl
      · split <;> rfl

/-- C6: Last write wins.  For every well-formed store and key, after a put
of `v` followed by successive puts of the values in `vs` under the same
key, `get` returns the last value written with its exact size, and
`rcrd_cnt` is unchanged by every put after the first. -/
theorem last_write_wins (h : List Nat → Nat) (t : Nat) (db : OlDatabase)
    (hwf : DbWF t db) (key : List Nat) (klen : Nat) (v : List Nat)
    (vs : List (List Nat)) :
    ol_unjar_ds h
        (vs.foldl (fun d w => ol_jar h d key klen w w.length)
          (ol_jar h db key klen v v.length)) key klen
      = some (vs.getLastD v, (vs.getLastD v).length) ∧
    (vs.foldl (fun d w => ol_jar h d key klen w w.length)
        (ol_jar h db key klen v v.length)).rcrd_cnt
      = (ol_jar h db key klen v v.length).rcrd_cnt := by
  obtain ⟨t1, hwf1, hunjar, _⟩ :=
    jar_step h t db hwf key klen v v.length defaultContentType 24
  have hunjar' : ol_unjar_ds h (ol_jar h db key klen v v.length) key klen
      = some (v, v.length) := by
    simp only [ol_jar]
    rw [hunjar, List.take_length]
  exact foldl_jar_inv h key klen vs _ t1 v hwf1 hunjar'

theorem last_write_wins_witness :
    DbWF 1 (mkEmptyDb 1) ∧
    ol_unjar_ds hashHead
        ([[2, 3]].foldl (fun d w => ol_jar hashHead d [7] 1 w w.length)
          (ol_jar hashHead (mkEmptyDb 1) [7] 1 [1] [1].length)) [7] 1
      = some ([2, 3], 2) ∧
    ([[2, 3]].foldl (fun d w => ol_jar hashHead d [7] 1 w w.length)
        (ol_jar hashHead (mkEmptyDb 1) [7] 1 [1] [1].length)).rcrd_cnt
      = (ol_jar hashHead (mkEmptyDb 1) [7] 1 [1] [1].length).rcrd_cnt := by
  have hmain := last_write_wins hashHead 1 (mkEmptyDb 1) (mkEmptyDb_wf 1) [7] 1 [1] [[2, 3]]
  exact ⟨mkEmptyDb_wf 1, by simpa using hmain.1, hmain.2⟩

/-- C7: Grow is triggered exactly when `rcrd_cnt` equals the bucket count
at the moment a put inserts a new key: never on an update, never at any
other load factor, and never by a delete; when it fires the byte size and
the bucket count both double, so the bucket count stays a power of two. -/
theorem grow_trigger_exact (h : List Nat → Nat) (t : Nat) (db : OlDatabase)
    (key : List Nat) (klen : Nat) (value : List Nat) (vsize : Nat)
    (ct : List Nat) (ctsize : Nat)
    (ht : db.cur_ht_size = PTR_SIZE * 2 ^ t) :
    ((_ol_get_bucket db (h (_ol_trunc key klen)) (_ol_trunc key klen)
        (_ol_trunc key klen).length).isSome →
      (_ol_jar h db key klen value vsize ct ctsize).cur_ht_size
        = db.cur_ht_size) ∧
    (_ol_get_bucket db (h (_ol_trunc key klen)) (_ol_trunc key klen)
        (_ol_trunc key klen).length = none →
      (db.rcrd_cnt = ol_ht_bucket_max db.cur_ht_size →
        (_ol_jar h db key klen value vsize ct ctsize).cur_ht_size
          = 2 * db.cur_ht_size ∧
        ol_ht_bucket_max (_ol_jar h db key klen value vsize ct ctsize).cur_ht_size
          = 2 * ol_ht_bucket_max db.cur_ht_size) ∧
      (db.rcrd_cnt ≠ ol_ht_bucket_max db.cur_ht_size →
        (_ol_jar h db key klen value vsize ct ctsize).cur_ht_size
          = db.cur_ht_size)) ∧
    (∃ t' : Nat, (_ol_jar h db key klen value vsize ct ctsize).cur_ht_size
        = PTR_SIZE * 2 ^ t') ∧
    (ol_scoop h db key klen).2.cur_ht_size = db.cur_ht_size := by
  have hN : ol_ht_bucket_max db.cur_ht_size = 2 ^ t := by
    rw [ht, bucket_max_pow]
  have hNpos : 0 < ol_ht_bucket_max db.cur_ht_size := by
    rw [hN]
    exact Nat.pos_pow_of_pos _ (by omega)
  have hgs : (_ol_grow_and_rehash_db db).cur_ht_size = db.cur_ht_size * 2 := rfl
  refine ⟨?_, ?_, ?_, scoop_size h db key klen⟩
  · intro hs
    obtain ⟨b, hb⟩ := Option.isSome_iff_exists.mp hs
    exact (jar_update_fields h db key klen value vsize ct ctsize b hb).2.1
  · intro hlook
    have hc := (jar_insert_fields h db key klen value vsize ct ctsize hlook).2.1
    constructor
    · intro heq
      have hcond : 0 < db.rcrd_cnt ∧ db.rcrd_cnt = ol_ht_bucket_max db.cur_ht_size :=
        ⟨by omega, heq⟩
      rw [hc, if_pos hcond, hgs]
      refine ⟨by ring, ?_⟩
      rw [ht]
      have h1 : PTR_SIZE * 2 ^ t * 2 = PTR_SIZE * 2 ^ (t + 1) := by
        rw [pow_succ]; ring
      rw [h1, bucket_max_pow, bucket_max_pow, pow_succ]
      ring
    · intro hne
      have hcond : ¬(0 < db.rcrd_cnt ∧ db.rcrd_cnt = ol_ht_bucket_max db.cur_ht_size) := by
        intro hcc
        exact hne hcc.2
      rw [hc, if_neg hcond]
  · cases hlook : _ol_get_bucket db (h (_ol_trunc key klen)) (_ol_trunc key klen)
        (_ol_trunc key klen).length with
    | some b =>
        refine ⟨t, ?_⟩
        rw [(jar_update_fields h db key klen value vsize ct ctsize b hlook).2.1, ht]
    | none =>
        have hc := (jar_insert_fields h db key klen value vsize ct ctsize hlook).2.1
        by_cases hcond : 0 < db.rcrd_cnt ∧ db.rcrd_cnt = ol_ht_bucket_max db.cur_ht_size
        · refine ⟨t + 1, ?_⟩
          rw [hc, if_pos hcond, hgs, ht, pow_succ]
          ring
        · refine ⟨t, ?_⟩
          rw [hc, if_neg hcond, ht]

theorem grow_trigger_exact_witness :
    (mkEmptyDb 1).cur_ht_size = PTR_SIZE * 2 ^ 1 ∧
    ((_ol_get_bucket (mkEmptyDb 1) (hashHead (_ol_trunc [3] 1)) (_ol_trunc [3] 1)
        (_ol_trunc [3] 1).length).isSome →
      (_ol_jar hashHead (mkEmptyDb 1) [3] 1 [9] 1 defaultContentType 24).cur_ht_size
        = (mkEmptyDb 1).cur_ht_size) ∧
    (_ol_get_bucket (mkEmptyDb 1) (hashHead (_ol_trunc [3] 1)) (_ol_trunc [3] 1)
        (_ol_trunc [3] 1).length = none →
      ((mkEmptyDb 1).rcrd_cnt = ol_ht_bucket_max (mkEmptyDb 1).cur_ht_size →
        (_ol_jar hashHead (mkEmptyDb 1) [3] 1 [9] 1 defaultContentType 24).cur_ht_size
          = 2 * (mkEmptyDb 1).cur_ht_size ∧
        ol_ht_bucket_max (_ol_jar hashHead (mkEmptyDb 1) [3] 1 [9] 1
            defaultContentType 24).cur_ht_size
          = 2 * ol_ht_bucket_max (mkEmptyDb 1).cur_ht_size) ∧
      ((mkEmptyDb 1).rcrd_cnt ≠ ol_ht_bucket_max (mkEmptyDb 1).cur_ht_size →
        (_ol_jar hashHead (mkEmptyDb 1) [3] 1 [9] 1 defaultContentType 24).cur_ht_size
          = (mkEmptyDb 1).cur_ht_size)) ∧
    (∃ t' : Nat, (_ol_jar hashHead (mkEmptyDb 1) [3] 1 [9] 1
        defaultContentType 24).cur_ht_size = PTR_SIZE * 2 ^ t') ∧
    (ol_scoop hashHead (mkEmptyDb 1) [3] 1).2.cur_ht_size
      = (mkEmptyDb 1).cur_ht_size :=
  ⟨by decide,
   grow_trigger_exact hashHead 1 (mkEmptyDb 1) [3] 1 [9] 1 defaultContentType 24
     (by decide)⟩

/-- C4 amended: `_ol_get_bucket` (used by get and put) declares a match
iff the stored and probe keys are byte-equal under the
`max(stored_len, probe_len)` comparison, so for get and put a strict
prefix never matches; `ol_scoop` however compares only the truncated
probe's length at the chain head, so a delete CAN match and remove a
record whose stored key strictly extends the probe, as the concrete store
`dbAB` shows: `delete("a")` succeeds while `get("a")` finds nothing. -/
theorem match_semantics_amended :
    (∀ (b : OlBucket) (probe : List Nat),
      b.klen = b.key.length → (∀ c ∈ b.key, c ≠ 0) → (∀ c ∈ probe, c ≠ 0) →
      (bucketMatches b probe probe.length = true ↔ b.key = probe)) ∧
    ((ol_scoop (fun _ => 0) dbAB [97] 1).1 = 0 ∧
     ol_unjar_ds (fun _ => 0) dbAB [97] 1 = none ∧
     (allBuckets (ol_scoop (fun _ => 0) dbAB [97] 1).2).length = 0) := by
  constructor
  · intro b probe hkl hfb hfp
    rw [bucketMatches, hkl]
    exact strncmpEq_max_iff _ _ hfb hfp
  · exact ⟨by decide, by decide, by decide⟩

theorem match_semantics_amended_witness :
    ((⟨[5, 6], 2, 0, [], 0, [], 0⟩ : OlBucket).klen
        = (⟨[5, 6], 2, 0, [], 0, [], 0⟩ : OlBucket).key.length) ∧
    (∀ c ∈ (⟨[5, 6], 2, 0, [], 0, [], 0⟩ : OlBucket).key, c ≠ 0) ∧
    (∀ c ∈ [5], c ≠ 0) ∧
    (bucketMatches (⟨[5, 6], 2, 0, [], 0, [], 0⟩ : OlBucket) [5] [5].length = true
      ↔ (⟨[5, 6], 2, 0, [], 0, [], 0⟩ : OlBucket).key = [5]) :=
  ⟨by decide, by decide, by decide,
   match_semantics_amended.1 ⟨[5, 6], 2, 0, [], 0, [], 0⟩ [5]
     (by decide) (by decide) (by decide)⟩

/-- C4 as stated is false: in `dbAB` the stored key `[97, 98]` is the only
record, a `get` probe with its strict prefix `[97]` finds nothing, yet
`delete` with the same probe reports success and removes the record. -/
theorem scoop_matches_strict_prefix_cex :
    ol_unjar_ds (fun _ => 0) dbAB [97] 1 = none ∧
    ol_unjar_ds (fun _ => 0) dbAB [97, 98] 2 = some ([1], 1) ∧
    (ol_scoop (fun _ => 0) dbAB [97] 1).1 = 0 ∧
    (allBuckets (ol_scoop (fun _ => 0) dbAB [97] 1).2).length = 0 := by
  decide

/-- C5 as stated is false: a put through `ol_jar_ct` with `ctsize = 0`
stores an empty content type, which `ol_content_type` then returns. -/
theorem empty_ctype_stored_cex :
    ol_content_type hashHead
        (ol_jar_ct hashHead (mkEmptyDb 1) [107] 1 [118] 1 [] 0) [107] 1
      = some [] ∧
    ol_content_type hashHead
        (ol_jar_ct hashHead (mkEmptyDb 1) [107] 1 [118] 1 [] 0) [107] 1
      ≠ some defaultContentType := by
  decide

/-- C5 amended: `_ol_jar` never substitutes a default for an empty content
type.  The default `"application/octet-stream"` (24 bytes) is supplied
only by the `ol_jar` entry point, which always passes it regardless of the
caller; `ol_jar_ct` stores the caller's content type verbatim, so with
`ctsize = 0` the stored and returned content type is empty. -/
theorem content_type_semantics_amended (h : List Nat → Nat) (t : Nat)
    (db : OlDatabase) (hwf : DbWF t db) (key : List Nat) (klen : Nat)
    (value : List Nat) (vsize : Nat) :
    ol_content_type h (ol_jar h db key klen value vsize) key klen
      = some defaultContentType ∧
    ol_content_type h (ol_jar_ct h db key klen value vsize [] 0) key klen
      = some [] := by
  constructor
  · cases hlook : _ol_get_bucket db (h (_ol_trunc key klen)) (_ol_trunc key klen)
        (_ol_trunc key klen).length with
    | some b =>
        have hct := (jar_update h t db hwf key klen value vsize
          defaultContentType 24 b hlook).2.2.1
        simpa only [ol_jar, show defaultContentType.take 24 = defaultContentType
          from by decide] using hct
    | none =>
        obtain ⟨t', _, _, hct⟩ := jar_insert h t db hwf key klen value vsize
          defaultContentType 24 hlook
        simpa only [ol_jar, show (defaultContentType.takeWhile
          (fun c => c != 0)).take 24 = defaultContentType from by decide] using hct
  · cases hlook : _ol_get_bucket db (h (_ol_trunc key klen)) (_ol_trunc key klen)
        (_ol_trunc key klen).length with
    | some b =>
        have hct := (jar_update h t db hwf key klen value vsize [] 0 b hlook).2.2.1
        simpa only [ol_jar_ct, List.take_nil] using hct
    | none =>
        obtain ⟨t', _, _, hct⟩ := jar_insert h t db hwf key klen value vsize [] 0 hlook
        simpa only [ol_jar_ct] using hct

theorem content_type_semantics_amended_witness :
    DbWF 1 (mkEmptyDb 1) ∧
    ol_content_type hashHead (ol_jar hashHead (mkEmptyDb 1) [9] 1 [5] 1) [9] 1
      = some defaultContentType ∧
    ol_content_type hashHead
        (ol_jar_ct hashHead (mkEmptyDb 1) [9] 1 [5] 1 [] 0) [9] 1
      = some [] :=
  ⟨mkEmptyDb_wf 1,
   content_type_semantics_amended hashHead 1 (mkEmptyDb 1) (mkEmptyDb_wf 1) [9] 1 [5] 1⟩

theorem chainAt_mem_all (db : OlDatabase) (i : Nat) :
    ∀ b ∈ chainAt db i, ∃ c ∈ db.hashes, b ∈ c := by
  intro b hb
  cases hge : db.hashes[i]? with
  | none => simp [chainAt, hge] at hb
  | some c =>
      refine ⟨c, List.getElem?_mem hge, ?_⟩
      simpa [chainAt, hge] using hb

/-- The raw-key walk of `ol_scoop` cannot see past the probe's first NUL
when every stored key is NUL-free: the walk behaves identically for any
two probes sharing the prefix before their first NUL. -/
theorem scoopTail_congr (key key' : List Nat) (klen klen' p p' : Nat)
    (hf : ∀ c ∈ key.take p, c ≠ 0) (hp : key[p]? = some 0) (hpk : p < klen)
    (hf' : ∀ c ∈ key'.take p', c ≠ 0) (hp' : key'[p']? = some 0)
    (hpk' : p' < klen') (hpre : key.take p = key'.take p') :
    ∀ bs : List OlBucket, (∀ b ∈ bs, ∀ c ∈ b.key, c ≠ 0) →
      scoopTail key klen bs = scoopTail key' klen' bs := by
  intro bs
  induction bs with
  | nil => intro _; rfl
  | cons b bs' ih =>
      intro hfree
      have hb := hfree b (List.mem_cons_self _ _)
      have hcmp : strncmpEq b.key key klen = strncmpEq b.key key' klen' := by
        apply Bool.coe_iff_coe.mp
        rw [strncmpEq_nul_stop p b.key key klen hb hf hp hpk,
          strncmpEq_nul_stop p' b.key key' klen' hb hf' hp' hpk', hpre]
      have htail := ih (fun x hx => hfree x (List.mem_cons_of_mem _ hx))
      simp only [scoopTail, hcmp, htail]

/-- `ol_scoop` behaves identically on two probes sharing the prefix before
their first NUL, provided every stored key is NUL-free. -/
theorem scoop_congr (h : List Nat → Nat) (db : OlDatabase)
    (hkeys : ∀ c ∈ db.hashes, ∀ b ∈ c, ∀ cc ∈ b.key, cc ≠ 0)
    (key key' : List Nat) (klen klen' p p' : Nat)
    (hf : ∀ c ∈ key.take p, c ≠ 0) (hp : key[p]? = some 0) (hpk : p < klen)
    (hps : p ≤ KEY_SIZE)
    (hf' : ∀ c ∈ key'.take p', c ≠ 0) (hp' : key'[p']? = some 0)
    (hpk' : p' < klen') (hps' : p' ≤ KEY_SIZE)
    (hpre : key.take p = key'.take p') :
    ol_scoop h db key klen = ol_scoop h db key' klen' := by
  have htr : _ol_trunc key klen = _ol_trunc key' klen' := by
    rw [trunc_of_nul key klen p hf hp hpk hps,
      trunc_of_nul key' klen' p' hf' hp' hpk' hps', hpre]
  have hstail : ∀ bs : List OlBucket, (∀ b ∈ bs, ∀ c ∈ b.key, c ≠ 0) →
      scoopTail key klen bs = scoopTail key' klen' bs :=
    scoopTail_congr key key' klen klen' p p' hf hp hpk hf' hp' hpk' hpre
  cases hch : chainAt db
      (_ol_calc_idx db.cur_ht_size (h (_ol_trunc key' klen'))) with
  | nil => simp only [ol_scoop, htr, hch]
  | cons b bs =>
      have hmem : ∀ x ∈ bs, ∀ c ∈ x.key, c ≠ 0 := by
        intro x hx
        obtain ⟨c0, hc0, hxc⟩ := chainAt_mem_all db _ x
          (by rw [hch]; exact List.mem_cons_of_mem _ hx)
        exact hkeys c0 hc0 x hxc
      simp only [ol_scoop, htr, hch, hstail bs hmem]

/-- C10: keys are truncated at their first zero byte, not only at
`KEY_SIZE`.  For a key buffer whose first NUL sits at position `p < klen`
(with `p ≤ KEY_SIZE`), the effective key length is
`min(klen, KEY_SIZE, p) = p`, and two key buffers sharing the prefix
before their first NUL denote the same binding for put, get, delete and
content_type alike. -/
theorem key_nul_truncation (h : List Nat → Nat) (db : OlDatabase)
    (hkeys : ∀ c ∈ db.hashes, ∀ b ∈ c, ∀ cc ∈ b.key, cc ≠ 0)
    (key key' : List Nat) (klen klen' p p' : Nat)
    (value : List Nat) (vsize : Nat) (ct : List Nat) (ctsize : Nat)
    (hf : ∀ c ∈ key.take p, c ≠ 0) (hp : key[p]? = some 0) (hpk : p < klen)
    (hps : p ≤ KEY_SIZE)
    (hf' : ∀ c ∈ key'.take p', c ≠ 0) (hp' : key'[p']? = some 0)
    (hpk' : p' < klen') (hps' : p' ≤ KEY_SIZE)
    (hpre : key.take p = key'.take p') :
    (_ol_trunc key klen).length = min klen (min KEY_SIZE p) ∧
    _ol_trunc key klen = _ol_trunc key' klen' ∧
    ol_unjar_ds h db key klen = ol_unjar_ds h db key' klen' ∧
    ol_content_type h db key klen = ol_content_type h db key' klen' ∧
    _ol_jar h db key klen value vsize ct ctsize
      = _ol_jar h db key' klen' value vsize ct ctsize ∧
    ol_scoop h db key klen = ol_scoop h db key' klen' := by
  have htr0 : _ol_trunc key klen = key.take p :=
    trunc_of_nul key klen p hf hp hpk hps
  have htr : _ol_trunc key klen = _ol_trunc key' klen' := by
    rw [htr0, trunc_of_nul key' klen' p' hf' hp' hpk' hps', hpre]
  have hplen : p < key.length := by
    by_contra hcon
    rw [List.getElem?_eq_none (by omega)] at hp
    exact Option.noConfusion hp
  refine ⟨?_, htr, ?_, ?_, ?_, ?_⟩
  · rw [htr0, List.length_take]
    omega
  · simp only [ol_unjar_ds, htr]
  · simp only [ol_content_type, htr]
  · simp only [_ol_jar, htr]
  · exact scoop_congr h db hkeys key key' klen klen' p p'
      hf hp hpk hps hf' hp' hpk' hps' hpre

theorem key_nul_truncation_witness :
    (∀ c ∈ dbChain2.hashes, ∀ b ∈ c, ∀ cc ∈ b.key, cc ≠ 0) ∧
    (_ol_trunc [2, 0, 9] 3).length = min 3 (min KEY_SIZE 1) ∧
    _ol_trunc [2, 0, 9] 3 = _ol_trunc [2, 0, 7, 7] 4 ∧
    ol_unjar_ds hashHead dbChain2 [2, 0, 9] 3
      = ol_unjar_ds hashHead dbChain2 [2, 0, 7, 7] 4 ∧
    ol_content_type hashHead dbChain2 [2, 0, 9] 3
      = ol_content_type hashHead dbChain2 [2, 0, 7, 7] 4 ∧
    _ol_jar hashHead dbChain2 [2, 0, 9] 3 [5] 1 defaultContentType 24
      = _ol_jar hashHead dbChain2 [2, 0, 7, 7] 4 [5] 1 defaultContentType 24 ∧
    ol_scoop hashHead dbChain2 [2, 0, 9] 3
      = ol_scoop hashHead dbChain2 [2, 0, 7, 7] 4 :=
  ⟨by decide,
   key_nul_truncation hashHead dbChain2 (by decide) [2, 0, 9] [2, 0, 7, 7]
     3 4 1 1 [5] 1 defaultContentType 24 (by decide) (by decide) (by decide)
     (by decide) (by decide) (by decide) (by decide) (by decide) (by decide)⟩

/-- C9 amended: `ol_load_db` validates the 4-byte magic, then the 4-digit
version; each mismatch returns the same error code -1 (distinguished from
the others only by a printed message, not by the result), success returns
0, and when at least `rcrd_cnt` records are present the loop consumes
exactly `rcrd_cnt` of them. -/
theorem load_validation_and_codes (h : List Nat → Nat) (db : OlDatabase)
    (f : DumpFileM) :
    (f.sig.take 4 ≠ DUMP_SIG → ol_load_db h db f = (-1, db)) ∧
    (f.sig.take 4 = DUMP_SIG → atoiDigits f.version ≠ DUMP_VERSION →
      ol_load_db h db f = (-1, db)) ∧
    (f.sig.take 4 = DUMP_SIG → atoiDigits f.version = DUMP_VERSION →
      (ol_load_db h db f).1 = 0 ∧
      (f.rcrd_cnt ≤ f.records.length →
        (f.records.take f.rcrd_cnt).length = f.rcrd_cnt)) := by
  refine ⟨?_, ?_, ?_⟩
  · intro hsig
    simp [ol_load_db, hsig]
  · intro hsig hver
    simp [ol_load_db, hsig, hver]
  · intro hsig hver
    refine ⟨by simp [ol_load_db, hsig, hver], fun hle => ?_⟩
    rw [List.length_take]
    omega

theorem load_validation_and_codes_witness :
    fGood.sig.take 4 = DUMP_SIG ∧
    atoiDigits fGood.version = DUMP_VERSION ∧
    fGood.rcrd_cnt ≤ fGood.records.length ∧
    (ol_load_db hashHead (mkEmptyDb 0) fGood).1 = 0 ∧
    (fGood.records.take fGood.rcrd_cnt).length = fGood.rcrd_cnt := by
  have hmain := (load_validation_and_codes hashHead (mkEmptyDb 0) fGood).2.2
    (by decide) (by decide)
  exact ⟨by decide, by decide, by decide, hmain.1, hmain.2 (by decide)⟩

/-- C9 as stated is false: a magic mismatch and a version mismatch return
the SAME result `(-1, db)`, so the three failure cases are not mutually
distinct; only failure versus success (0) is distinguishable. -/
theorem load_error_codes_equal_cex :
    ol_load_db hashHead (mkEmptyDb 0)
        { sig := [1, 2, 3, 4], version := dumpVersionChars, rcrd_cnt := 0,
          records := [] }
      = (-1, mkEmptyDb 0) ∧
    ol_load_db hashHead (mkEmptyDb 0)
        { sig := DUMP_SIG, version := [48, 48, 48, 50], rcrd_cnt := 0,
          records := [] }
      = (-1, mkEmptyDb 0) := by
  decide

/-- C1 is right and the code is wrong: `_ol_grow_and_rehash_db` recomputes
the slot only of each chain HEAD and drags the rest of the chain along.
In the two-put store `dbChain2` (keys `[8]` and `[2]` colliding in slot 0
of a 2-slot table), key `[2]` is retrievable before the grow but not
after: its record was dragged to the head's new slot 0 while the lookup
probes slot 2. -/
theorem grow_loses_binding_bug :
    ol_unjar hashHead dbChain2 [2] 1 = some [20] ∧
    ol_unjar hashHead (_ol_grow_and_rehash_db dbChain2) [2] 1 = none ∧
    (allBuckets (_ol_grow_and_rehash_db dbChain2)).length = 2 := by
  decide

/-- C2 is right and the code is wrong: deleting the LAST record of a
collision chain, `ol_scoop` reports success and decrements `rcrd_cnt` but
never relinks the predecessor (`last->next` is only set when the matched
record has a successor), so the freed record is still reachable: in
`dbChain2`, after deleting key `[2]` (the second record of slot 0's
chain) the store still finds it and both records are still on the chain
while `rcrd_cnt` says 1. -/
theorem scoop_last_of_chain_bug :
    (ol_scoop hashHead dbChain2 [2] 1).1 = 0 ∧
    (ol_scoop hashHead dbChain2 [2] 1).2.rcrd_cnt = 1 ∧
    ol_unjar hashHead (ol_scoop hashHead dbChain2 [2] 1).2 [2] 1 = some [20] ∧
    (allBuckets (ol_scoop hashHead dbChain2 [2] 1).2).length = 2 := by
  decide

/-- C3 is right and the code is wrong: with `APPEND_ONLY` on and state
AOKAY, a successful delete of a NON-head chain record appends no SCOOP
command to the AOL (only the head branch of `ol_scoop` writes one), while
a head delete does append exactly one. -/
theorem scoop_mid_chain_no_aol_bug :
    aolOn dbChain2Aol = true ∧
    (ol_scoop hashHead dbChain2Aol [2] 1).1 = 0 ∧
    (ol_scoop hashHead dbChain2Aol [2] 1).2.aol = dbChain2Aol.aol ∧
    (ol_scoop hashHead dbChain2Aol [8] 1).2.aol.length
      = dbChain2Aol.aol.length + 1 := by
  decide

set_option maxRecDepth 4000 in
/-- C8 is right and the code is wrong about failed write steps:
`_ol_write_bucket` ignores the return values of its `fwrite`s, so when the
writes of the only record fail, `ol_save_db` still reports success (0) and
renames the truncated temp file (header only) over the live dump, which is
therefore clobbered rather than untouched. -/
theorem save_record_write_failure_bug :
    ol_save_db dbOne fsLive envRecFail
      = (0, { tmp := none,
              live := some [DumpEntry.header DUMP_SIG dumpVersionChars 1] }) ∧
    (ol_save_db dbOne fsLive envRecFail).2.live ≠ fsLive.live ∧
    (ol_save_db dbOne fsLive { envRecFail with recordOk := fun _ => true }).2.live
      = some (DumpEntry.header DUMP_SIG dumpVersionChars 1 ::
          bucketEntries (newBucket [5] 1 5 [9] 1 defaultContentType 24)) := by
  refine ⟨by decide, by decide, by decide⟩

end Oleg
